import Mathlib

set_option linter.unusedVariables false

/-!
Verification development for the undirected-graph library in src/graph.py.

The embedding represents Python sets as insertion-ordered duplicate-free
lists and Python dicts as insertion-ordered association lists, so that the
exact mutation behaviour of the source (including the possibility of a
KeyError on a missing dictionary key, and the pruning of empty buckets in
the per-node link index) is preserved.  Nodes are natural numbers; an
undirected link is stored as its canonical (min, max) pair, matching the
order-insensitive equality of the frozenset-based Link class.
-/

/-- Python set.add on an insertion-ordered set: append the element if absent. -/
def sadd {α : Type} [DecidableEq α] (l : List α) (x : α) : List α :=
  if x ∈ l then l else l ++ [x]

/-- Python set.discard on an insertion-ordered set: drop the element if present. -/
def sdiscard {α : Type} [DecidableEq α] : List α → α → List α
  | [], _ => []
  | y :: l, x => if y = x then sdiscard l x else y :: sdiscard l x

/-- Python dict lookup (mapping.get / mapping[k]): first entry with the key. -/
def dfind {β : Type} : List (ℕ × β) → ℕ → Option β
  | [], _ => none
  | (k, v) :: rest, key => if k = key then some v else dfind rest key

/-- Python dict assignment mapping[k] = v: update the entry in place if the
key exists (keeping its position), otherwise append a new entry. -/
def dset {β : Type} : List (ℕ × β) → ℕ → β → List (ℕ × β)
  | [], key, val => [(key, val)]
  | (k, v) :: rest, key, val =>
    if k = key then (key, val) :: rest else (k, v) :: dset rest key val

/-- Python del mapping[k] / mapping.pop(k, None): drop the entry for the key. -/
def derase {β : Type} : List (ℕ × β) → ℕ → List (ℕ × β)
  | [], _ => []
  | (k, v) :: rest, key =>
    if k = key then derase rest key else (k, v) :: derase rest key

/-- An undirected link, stored canonically.  The Python Link class is a
frozenset of two distinct nodes with order-insensitive equality and hash;
storing the (min, max) pair gives the same identification of (a, b) with
(b, a). -/
abbrev Link := ℕ × ℕ

/-- Canonical form of the link between a and b (Link(a, b) in the source). -/
def mkLink (a b : ℕ) : Link := (min a b, max a b)

/-- The exceptions the source can raise, named after the roles the spec
assigns them.  keyError models a raw Python KeyError escaping from a dict
access; fuelExhausted is the artificial outcome of the bounded model of the
BFS while-loop and is never produced when enough fuel is supplied. -/
inductive GraphError : Type where
  | invalidLink
  | unknownNode
  | immutable
  | invariantViolation
  | notIncident
  | keyError
  | fuelExhausted
deriving DecidableEq, Repr

/-- The four indices owned by the Graph class: _nodes, _links, _node_links
and _neighborhoods (src/graph.py lines 208-211). -/
structure GraphState : Type where
  nodes : List ℕ
  links : List Link
  nodeLinks : List (ℕ × List Link)
  neighborhoods : List (ℕ × List ℕ)
deriving DecidableEq, Repr

/-- Graph(): the empty graph. -/
def GraphState.empty : GraphState := ⟨[], [], [], []⟩

/-- Graph.add (src lines 241-243): self._nodes.add(value);
self._neighborhoods[value] = \x7bvalue\x7d.  Note that the neighborhood entry is
overwritten unconditionally, even when the node is already a member. -/
def Graph.add (g : GraphState) (v : ℕ) : GraphState :=
  { g with nodes := sadd g.nodes v, neighborhoods := dset g.neighborhoods v [v] }

/-- _discard_and_del (src lines 365-369): discard elem from the bucket at
key, dropping the bucket entirely if it becomes (or already was) empty. -/
def discardAndDel (m : List (ℕ × List Link)) (k : ℕ) (e : Link) :
    List (ℕ × List Link) :=
  match dfind m k with
  | none => m
  | some c =>
    let cNew := sdiscard c e
    if cNew = [] then derase m k else dset m k cNew

/-- mapping.setdefault(key, set()).add(elem) on the per-node link index:
a missing bucket is created (appended, as dict insertion does) holding just
the element, an existing bucket gains the element in place. -/
def dsetdefaultAdd (m : List (ℕ × List Link)) (k : ℕ) (e : Link) :
    List (ℕ × List Link) :=
  match dfind m k with
  | none => m ++ [(k, [e])]
  | some c => dset m k (sadd c e)

/-- The body of Graph.add_link after the validity and membership checks
(src lines 257-261): update _node_links for both endpoints, then both
neighborhood entries (a raw dict access that can raise KeyError if the
entry is missing), then add the link to _links. -/
def addLinkCore (g : GraphState) (l : Link) : GraphState × Option GraphError :=
  let nl1 := dsetdefaultAdd g.nodeLinks l.1 l
  let nl2 := dsetdefaultAdd nl1 l.2 l
  let g1 := { g with nodeLinks := nl2 }
  match dfind g1.neighborhoods l.1 with
  | none => (g1, some GraphError.keyError)
  | some s1 =>
    let g2 := { g1 with neighborhoods := dset g1.neighborhoods l.1 (sadd s1 l.2) }
    match dfind g2.neighborhoods l.2 with
    | none => (g2, some GraphError.keyError)
    | some s2 =>
      let g3 := { g2 with neighborhoods := dset g2.neighborhoods l.2 (sadd s2 l.1) }
      ({ g3 with links := sadd g3.links l }, none)

/-- Graph.add_link (src lines 251-261).  Link(a, b) raises for a = b
(modelled as invalidLink); then each endpoint is checked for membership,
in construction order, raising the unknown-node error before any index is
touched. -/
def Graph.add_link (g : GraphState) (a b : ℕ) : GraphState × Option GraphError :=
  if a = b then (g, some GraphError.invalidLink)
  else if a ∈ g.nodes then
    if b ∈ g.nodes then addLinkCore g (mkLink a b)
    else (g, some GraphError.unknownNode)
  else (g, some GraphError.unknownNode)

/-- Graph.discard_link on an already-constructed Link (src lines 263-270):
prune both _node_links buckets, then discard each endpoint from the other
endpoint's neighborhood entry (raw dict accesses that can raise KeyError),
then discard the link from _links. -/
def discardLinkL (g : GraphState) (l : Link) : GraphState × Option GraphError :=
  let nl1 := discardAndDel g.nodeLinks l.1 l
  let nl2 := discardAndDel nl1 l.2 l
  let g1 := { g with nodeLinks := nl2 }
  match dfind g1.neighborhoods l.1 with
  | none => (g1, some GraphError.keyError)
  | some s1 =>
    let g2 := { g1 with neighborhoods := dset g1.neighborhoods l.1 (sdiscard s1 l.2) }
    match dfind g2.neighborhoods l.2 with
    | none => (g2, some GraphError.keyError)
    | some s2 =>
      let g3 := { g2 with neighborhoods := dset g2.neighborhoods l.2 (sdiscard s2 l.1) }
      ({ g3 with links := sdiscard g3.links l }, none)

/-- Graph.discard_link called with a node pair: Link(a, b) raises for a = b,
otherwise the canonical link is removed. -/
def Graph.discard_link (g : GraphState) (a b : ℕ) : GraphState × Option GraphError :=
  if a = b then (g, some GraphError.invalidLink) else discardLinkL g (mkLink a b)

/-- The cascade in Graph.discard: remove each link of the snapshot in turn,
stopping (with the partially mutated state) if a removal raises. -/
def discardCascade : GraphState → List Link → GraphState × Option GraphError
  | g, [] => (g, none)
  | g, l :: ls =>
    match discardLinkL g l with
    | (g1, none) => discardCascade g1 ls
    | (g1, some e) => (g1, some e)

/-- Graph.discard (src lines 245-249): cascade over a snapshot of the
node's _node_links bucket, discard the node from _nodes, then
del _neighborhoods[value] - a deletion that raises KeyError when the entry
is absent (after _nodes was already updated). -/
def Graph.discard (g : GraphState) (v : ℕ) : GraphState × Option GraphError :=
  match discardCascade g ((dfind g.nodeLinks v).getD []) with
  | (g1, some e) => (g1, some e)
  | (g1, none) =>
    let g2 := { g1 with nodes := sdiscard g1.nodes v }
    match dfind g2.neighborhoods v with
    | none => (g2, some GraphError.keyError)
    | some _ => ({ g2 with neighborhoods := derase g2.neighborhoods v }, none)

/-- NeighborhoodView.add (src lines 121-125): add the value as a node, and
link it to the viewed node unless it is the node itself. -/
def nviewAdd (g : GraphState) (n v : ℕ) : GraphState × Option GraphError :=
  let g1 := Graph.add g v
  if n = v then (g1, none) else Graph.add_link g1 n v

/-- NeighborhoodView.discard (src lines 127-130): removing the node from its
own neighborhood raises; otherwise the connecting link is discarded. -/
def nviewDiscard (g : GraphState) (n v : ℕ) : GraphState × Option GraphError :=
  if n = v then (g, some GraphError.invariantViolation)
  else Graph.discard_link g n v

/-- NodeLinksView.add (src lines 85-89): the link must touch the viewed
node, then delegates to add_link. -/
def nlviewAdd (g : GraphState) (n x y : ℕ) : GraphState × Option GraphError :=
  if x = y then (g, some GraphError.invalidLink)
  else if n = x ∨ n = y then Graph.add_link g x y
  else (g, some GraphError.notIncident)

/-- NodeLinksView.discard (src lines 91-95): a silent no-op when the link is
not in the node's bucket, else delegates to discard_link. -/
def nlviewDiscard (g : GraphState) (n x y : ℕ) : GraphState × Option GraphError :=
  if x = y then (g, some GraphError.invalidLink)
  else if mkLink x y ∈ (dfind g.nodeLinks n).getD [] then discardLinkL g (mkLink x y)
  else (g, none)

/-- NeighborhoodView._neighborhood (src line 110): graph._neighborhoods
.get(node, set()). -/
def nbhdList (g : GraphState) (v : ℕ) : List ℕ :=
  (dfind g.neighborhoods v).getD []

/-- The inner loop of _minimal_spanning_subgraph (src lines 493-498): visit
the children of one parent; a child not yet seen is added to the subgraph,
linked to this parent, and queued for the next frontier. -/
def processChildren (g : GraphState) (parent : ℕ) :
    List ℕ → GraphState → List ℕ → List ℕ →
    Except GraphError (GraphState × List ℕ)
  | [], sub, _, nl => .ok (sub, nl)
  | c :: cs, sub, seen, nl =>
    if c ∈ seen then processChildren g parent cs sub seen nl
    else
      let sub1 := Graph.add sub c
      match Graph.add_link sub1 parent c with
      | (sub2, none) => processChildren g parent cs sub2 seen (sadd nl c)
      | (sub2, some e) => .error e

/-- The middle loop of _minimal_spanning_subgraph (src line 492): process
every parent of the current frontier in turn. -/
def processLevel (g : GraphState) :
    List ℕ → GraphState → List ℕ → List ℕ →
    Except GraphError (GraphState × List ℕ)
  | [], sub, _, nl => .ok (sub, nl)
  | p :: ps, sub, seen, nl =>
    match processChildren g p (nbhdList g p) sub seen nl with
    | .ok (sub1, nl1) => processLevel g ps sub1 seen nl1
    | .error e => .error e

/-- The while-loop of _minimal_spanning_subgraph (src lines 488-498),
bounded by fuel: while the next frontier is nonempty, absorb it into seen,
append it as a layer, and expand it. -/
def bfsLoop (g : GraphState) :
    ℕ → GraphState → List ℕ → List (List ℕ) → List ℕ →
    Except GraphError (GraphState × List (List ℕ))
  | 0, _, _, _, _ => .error GraphError.fuelExhausted
  | fuel + 1, sub, seen, layers, nl =>
    if nl = [] then .ok (sub, layers)
    else
      let seen1 := nl.foldl sadd seen
      match processLevel g nl sub seen1 [] with
      | .ok (sub1, nl1) => bfsLoop g fuel sub1 seen1 (layers ++ [nl]) nl1
      | .error e => .error e

/-- _minimal_spanning_subgraph (src lines 476-499): seed the subgraph and
frontier with the start node when it is present, then run the frontier
expansion.  One unit of fuel beyond the node count always suffices. -/
def minimalSpanning (g : GraphState) (start : ℕ) :
    Except GraphError (GraphState × List (List ℕ)) :=
  if start ∈ g.nodes then
    bfsLoop g (g.nodes.length + 1) (Graph.add GraphState.empty start) [] [] [start]
  else
    bfsLoop g (g.nodes.length + 1) GraphState.empty [] [] []

/-- The MinimalSpanningSubgraph snapshot (src lines 423-442): the computed
subgraph together with its layer tuple and start node. -/
structure MSS : Type where
  state : GraphState
  layers : List (List ℕ)
  start : ℕ
deriving DecidableEq, Repr

/-- MinimalSpanningSubgraph.__init__ (src lines 426-430). -/
def mkMinimalSpanningSubgraph (g : GraphState) (start : ℕ) :
    Except GraphError MSS :=
  match minimalSpanning g start with
  | .ok (sub, layers) => .ok ⟨sub, layers, start⟩
  | .error e => .error e

/-- MinimalSpanningSubgraph.add (src lines 432-433): always raises. -/
def MSS.add (m : MSS) (v : ℕ) : MSS × Option GraphError :=
  (m, some GraphError.immutable)

/-- MinimalSpanningSubgraph.discard (src lines 435-436): always raises. -/
def MSS.discard (m : MSS) (v : ℕ) : MSS × Option GraphError :=
  (m, some GraphError.immutable)

/-- MinimalSpanningSubgraph.add_link (src lines 438-439): always raises. -/
def MSS.add_link (m : MSS) (a b : ℕ) : MSS × Option GraphError :=
  (m, some GraphError.immutable)

/-- MinimalSpanningSubgraph.discard_link (src lines 441-442): always raises. -/
def MSS.discard_link (m : MSS) (a b : ℕ) : MSS × Option GraphError :=
  (m, some GraphError.immutable)

/-- The structural invariants of a well-formed graph state: links are
canonical pairs of distinct member nodes, every member has a neighborhood
entry, the per-node link index is sound and complete for the link set,
and neighborhood entries mention only member nodes.  All clauses are
decidable on a concrete state. -/
def WF (g : GraphState) : Prop :=
  (∀ l ∈ g.links, l.1 < l.2) ∧
  (∀ l ∈ g.links, l.1 ∈ g.nodes ∧ l.2 ∈ g.nodes) ∧
  (∀ v ∈ g.nodes, (dfind g.neighborhoods v).isSome = true) ∧
  (∀ e ∈ g.nodeLinks, ∀ l ∈ e.2, l ∈ g.links ∧ (l.1 = e.1 ∨ l.2 = e.1)) ∧
  (∀ l ∈ g.links,
    l ∈ (dfind g.nodeLinks l.1).getD [] ∧ l ∈ (dfind g.nodeLinks l.2).getD []) ∧
  (∀ e ∈ g.neighborhoods, ∀ u ∈ e.2, u ∈ g.nodes)

instance (g : GraphState) : Decidable (WF g) := by
  unfold WF
  infer_instance

/-- Every member node has a neighborhood entry containing itself. -/
def SelfMem (g : GraphState) : Prop :=
  ∀ a ∈ g.nodes, ∃ s, dfind g.neighborhoods a = some s ∧ a ∈ s

/-- Every stored per-node link bucket holds only canonical pairs. -/
def LinksProper (g : GraphState) : Prop :=
  ∀ e ∈ g.nodeLinks, ∀ l ∈ e.2, l.1 < l.2

/-- Every member node has a neighborhood entry (key presence only). -/
def KeysOk (g : GraphState) : Prop :=
  ∀ v ∈ g.nodes, (dfind g.neighborhoods v).isSome = true

/-- The graph states reachable from the empty graph through the public
mutation operations: the four Graph primitives and the mutating view
operations (which delegate to them). -/
inductive Reachable : GraphState → Prop where
  | empty : Reachable GraphState.empty
  | add (g : GraphState) (v : ℕ) : Reachable g → Reachable (Graph.add g v)
  | discard (g : GraphState) (v : ℕ) :
      Reachable g → Reachable (Graph.discard g v).1
  | add_link (g : GraphState) (a b : ℕ) :
      Reachable g → Reachable (Graph.add_link g a b).1
  | discard_link (g : GraphState) (a b : ℕ) :
      Reachable g → Reachable (Graph.discard_link g a b).1
  | nview_add (g : GraphState) (n v : ℕ) :
      Reachable g → Reachable (nviewAdd g n v).1
  | nview_discard (g : GraphState) (n v : ℕ) :
      Reachable g → Reachable (nviewDiscard g n v).1
  | nlview_add (g : GraphState) (n x y : ℕ) :
      Reachable g → Reachable (nlviewAdd g n x y).1
  | nlview_discard (g : GraphState) (n x y : ℕ) :
      Reachable g → Reachable (nlviewDiscard g n x y).1

/-- A two-node graph with a single link, used to exhibit the node re-add
defect. -/
def gPair : GraphState :=
  (Graph.add_link (Graph.add (Graph.add GraphState.empty 1) 2) 1 2).1

/-- The scenario graph of the spec: nodes 1-4 and links (1,2), (2,3), (2,4). -/
def gC8 : GraphState :=
  let g0 := Graph.add (Graph.add (Graph.add (Graph.add GraphState.empty 1) 2) 3) 4
  let g1 := (Graph.add_link g0 1 2).1
  let g2 := (Graph.add_link g1 2 3).1
  (Graph.add_link g2 2 4).1

/-- A diamond: nodes 1-4 and links (1,2), (1,3), (2,4), (3,4), so node 4 is
reachable from two members of the same BFS frontier. -/
def gDiamond : GraphState :=
  let g0 := Graph.add (Graph.add (Graph.add (Graph.add GraphState.empty 1) 2) 3) 4
  let g1 := (Graph.add_link g0 1 2).1
  let g2 := (Graph.add_link g1 1 3).1
  let g3 := (Graph.add_link g2 2 4).1
  (Graph.add_link g3 3 4).1

/-- C1: the claim states that adding an already-member node leaves the
whole state (all four indices) unchanged.  The code instead overwrites the
neighborhood entry with the singleton unconditionally: on the two-node
graph with link (1,2), re-adding node 1 shrinks neighbors[1] from
[1, 2] to [1], so the state changes. -/
theorem c1_code_bug_eval :
    1 ∈ gPair.nodes ∧
    dfind gPair.neighborhoods 1 = some [1, 2] ∧
    dfind (Graph.add gPair 1).neighborhoods 1 = some [1] ∧
    Graph.add gPair 1 ≠ gPair := by decide

/-- C2: the claim states that every reached node other than the start is
linked to exactly one parent, making the output a spanning tree.  On the
diamond graph (links (1,2), (1,3), (2,4), (3,4)) started at 1, node 4 is
discovered by both members 2 and 3 of the same frontier because discovered
children are never added to the seen set within a frontier; the output has
four links on four reached nodes, which is not a spanning tree. -/
theorem c2_code_bug_eval :
    (minimalSpanning gDiamond 1).toOption.map
        (fun r => (r.1.nodes, r.1.links, r.2)) =
      some ([1, 2, 3, 4], [(1, 2), (1, 3), (2, 4), (3, 4)], [[1], [2, 3], [4]]) := by
  decide

/-- C3: the claim states that removing an absent node returns without
raising and changes nothing.  The code reaches del _neighborhoods[value]
for the absent node and raises KeyError (modelled as the keyError outcome);
on the empty graph, remove_node(1) raises. -/
theorem c3_code_bug_eval :
    1 ∉ GraphState.empty.nodes ∧
    Graph.discard GraphState.empty 1 =
      (GraphState.empty, some GraphError.keyError) := by decide

/-- C4: the claim states that removing an absent link - including when an
endpoint is not a member node - is a silent no-op.  When endpoint 1 is not
a member, the code reaches _neighborhoods[link.left] and raises KeyError:
on the empty graph, remove_link(1, 2) raises. -/
theorem c4_code_bug_eval :
    (1, 2) ∉ GraphState.empty.links ∧
    Graph.discard_link GraphState.empty 1 2 =
      (GraphState.empty, some GraphError.keyError) := by decide

/-- C5: adding a link with a missing endpoint fails with the unknown-node
error (the raise in Graph.add_link, src line 256) and returns the state
exactly as it was: both membership checks precede every index update. -/
theorem c5_add_link_unknown (g : GraphState) (a b : ℕ) (hab : a ≠ b)
    (h : a ∉ g.nodes ∨ b ∉ g.nodes) :
    Graph.add_link g a b = (g, some GraphError.unknownNode) := by
  unfold Graph.add_link
  rw [if_neg hab]
  rcases h with h | h
  · rw [if_neg h]
  · by_cases ha : a ∈ g.nodes
    · rw [if_pos ha, if_neg h]
    · rw [if_neg ha]

/-- Witness for c5_add_link_unknown at the empty graph and the pair (1, 2). -/
theorem c5_witness :
    (1 : ℕ) ≠ 2 ∧
    ((1 : ℕ) ∉ GraphState.empty.nodes ∨ (2 : ℕ) ∉ GraphState.empty.nodes) ∧
    Graph.add_link GraphState.empty 1 2 =
      (GraphState.empty, some GraphError.unknownNode) :=
  ⟨by decide, Or.inl (by decide),
    c5_add_link_unknown GraphState.empty 1 2 (by decide) (Or.inl (by decide))⟩

/-- C8: on the graph with nodes 1-4 and links (1,2), (2,3), (2,4), the
minimal spanning computation from start 1 yields the layers [1], [2],
[3, 4] and exactly the links (1,2), (2,3), (2,4); from the absent start 99
it yields the empty subgraph and no layers. -/
theorem c8_scenarios :
    (minimalSpanning gC8 1).toOption.map
        (fun r => (r.1.nodes, r.1.links, r.2)) =
      some ([1, 2, 3, 4], [(1, 2), (2, 3), (2, 4)], [[1], [2], [3, 4]]) ∧
    (minimalSpanning gC8 99).toOption.map
        (fun r => (r.1.nodes, r.1.links, r.2)) =
      some ([], [], []) := by decide

/-- C9: every mutation attempt on a minimal-spanning-subgraph snapshot -
adding or discarding a node, adding or discarding a link - fails with the
immutable-structure error and returns the snapshot unchanged. -/
theorem c9_immutable (m : MSS) (v a b : ℕ) :
    MSS.add m v = (m, some GraphError.immutable) ∧
    MSS.discard m v = (m, some GraphError.immutable) ∧
    MSS.add_link m a b = (m, some GraphError.immutable) ∧
    MSS.discard_link m a b = (m, some GraphError.immutable) :=
  ⟨rfl, rfl, rfl, rfl⟩

theorem mem_sadd {α : Type} [DecidableEq α] {l : List α} {x y : α} :
    y ∈ sadd l x ↔ y ∈ l ∨ y = x := by
  unfold sadd
  by_cases h : x ∈ l
  · rw [if_pos h]
    constructor
    · exact Or.inl
    · rintro (hy | rfl)
      · exact hy
      · exact h
  · rw [if_neg h]
    simp [List.mem_append]

theorem mem_sdiscard {α : Type} [DecidableEq α] {l : List α} {x y : α} :
    y ∈ sdiscard l x ↔ y ∈ l ∧ y ≠ x := by
  induction l with
  | nil => simp [sdiscard]
  | cons a l ih =>
    by_cases h : a = x
    · rw [show sdiscard (a :: l) x = sdiscard l x from by simp [sdiscard, h]]
      rw [ih]
      simp only [List.mem_cons]
      subst h
      tauto
    · rw [show sdiscard (a :: l) x = a :: sdiscard l x from by simp [sdiscard, h]]
      simp only [List.mem_cons, ih]
      constructor
      · rintro (rfl | ⟨hy, hne⟩)
        · exact ⟨Or.inl rfl, h⟩
        · exact ⟨Or.inr hy, hne⟩
      · rintro ⟨hy | hy, hne⟩
        · exact Or.inl hy
        · exact Or.inr ⟨hy, hne⟩

theorem dfind_dset_self {β : Type} (m : List (ℕ × β)) (k : ℕ) (v : β) :
    dfind (dset m k v) k = some v := by
  induction m with
  | nil => simp [dset, dfind]
  | cons e rest ih =>
    obtain ⟨k1, v1⟩ := e
    by_cases h : k1 = k
    · simp [dset, h, dfind]
    · simp [dset, h, dfind, ih]

theorem dfind_dset_ne {β : Type} (m : List (ℕ × β)) (k k2 : ℕ) (v : β)
    (h : k2 ≠ k) : dfind (dset m k v) k2 = dfind m k2 := by
  induction m with
  | nil =>
    simp only [dset, dfind]
    rw [if_neg (Ne.symm h)]
  | cons e rest ih =>
    obtain ⟨k1, v1⟩ := e
    by_cases h1 : k1 = k
    · subst h1
      simp [dset, dfind, Ne.symm h]
    · by_cases h2 : k1 = k2
      · subst h2
        simp [dset, dfind, h1]
      · simp [dset, dfind, h1, h2, ih]

theorem dfind_derase_self {β : Type} (m : List (ℕ × β)) (k : ℕ) :
    dfind (derase m k) k = none := by
  induction m with
  | nil => rfl
  | cons e rest ih =>
    obtain ⟨k1, v1⟩ := e
    by_cases h : k1 = k
    · simpa [derase, h] using ih
    · simpa [derase, h, dfind] using ih

theorem dfind_derase_ne {β : Type} (m : List (ℕ × β)) (k k2 : ℕ)
    (h : k2 ≠ k) : dfind (derase m k) k2 = dfind m k2 := by
  induction m with
  | nil => rfl
  | cons e rest ih =>
    obtain ⟨k1, v1⟩ := e
    by_cases h1 : k1 = k
    · subst h1
      simp [derase, dfind, Ne.symm h, ih]
    · by_cases h2 : k1 = k2
      · subst h2
        simp [derase, dfind, h1]
      · simp [derase, dfind, h1, h2, ih]

theorem dfind_mem {β : Type} {m : List (ℕ × β)} {k : ℕ} {v : β}
    (h : dfind m k = some v) : (k, v) ∈ m := by
  induction m with
  | nil => simp [dfind] at h
  | cons e rest ih =>
    obtain ⟨k1, v1⟩ := e
    by_cases h1 : k1 = k
    · subst h1
      simp [dfind] at h
      subst h
      exact List.mem_cons_self _ _
    · simp [dfind, h1] at h
      exact List.mem_cons_of_mem _ (ih h)

theorem dfind_append_some {β : Type} {m : List (ℕ × β)} {k : ℕ} {v : β}
    (l2 : List (ℕ × β)) (h : dfind m k = some v) :
    dfind (m ++ l2) k = some v := by
  induction m with
  | nil => simp [dfind] at h
  | cons e rest ih =>
    obtain ⟨k1, v1⟩ := e
    by_cases h1 : k1 = k
    · subst h1
      simp [dfind] at h ⊢
      exact h
    · simp [dfind, h1] at h ⊢
      exact ih h

theorem dfind_append_none {β : Type} {m : List (ℕ × β)} {k : ℕ}
    (l2 : List (ℕ × β)) (h : dfind m k = none) :
    dfind (m ++ l2) k = dfind l2 k := by
  induction m with
  | nil => rfl
  | cons e rest ih =>
    obtain ⟨k1, v1⟩ := e
    by_cases h1 : k1 = k
    · subst h1
      simp [dfind] at h
    · simp [dfind, h1] at h ⊢
      exact ih h

theorem mem_dset {β : Type} {m : List (ℕ × β)} {k : ℕ} {v : β} {e : ℕ × β}
    (h : e ∈ dset m k v) : e = (k, v) ∨ e ∈ m := by
  induction m with
  | nil => simpa [dset] using h
  | cons e1 rest ih =>
    obtain ⟨k1, v1⟩ := e1
    by_cases h1 : k1 = k
    · subst h1
      simp [dset] at h
      rcases h with h | h
      · exact Or.inl h
      · exact Or.inr (List.mem_cons_of_mem _ h)
    · simp [dset, h1] at h
      rcases h with h | h
      · exact Or.inr (by simp [h])
      · rcases ih h with h2 | h2
        · exact Or.inl h2
        · exact Or.inr (List.mem_cons_of_mem _ h2)

theorem mem_derase {β : Type} {m : List (ℕ × β)} {k : ℕ} {e : ℕ × β}
    (h : e ∈ derase m k) : e ∈ m := by
  induction m with
  | nil => simp [derase] at h
  | cons e1 rest ih =>
    obtain ⟨k1, v1⟩ := e1
    by_cases h1 : k1 = k
    · simp only [derase, if_pos h1] at h
      exact List.mem_cons_of_mem _ (ih h)
    · simp only [derase, if_neg h1, List.mem_cons] at h
      rcases h with h | h
      · exact List.mem_cons.mpr (Or.inl h)
      · exact List.mem_cons_of_mem _ (ih h)

theorem mem_foldl_sadd {α : Type} [DecidableEq α] (l : List α) :
    ∀ (s : List α) (x : α), x ∈ l.foldl sadd s ↔ x ∈ s ∨ x ∈ l := by
  induction l with
  | nil => simp
  | cons c cs ih =>
    intro s x
    simp only [List.foldl_cons]
    rw [ih, mem_sadd]
    simp only [List.mem_cons]
    tauto

theorem length_filter_mono {α : Type} (l : List α) (p q : α → Bool)
    (h : ∀ x, q x = true → p x = true) :
    (l.filter q).length ≤ (l.filter p).length := by
  induction l with
  | nil => simp
  | cons a l ih =>
    by_cases hq : q a = true
    · have hp := h a hq
      simp only [List.filter_cons, hq, hp, if_true, List.length_cons]
      exact Nat.succ_le_succ ih
    · by_cases hp : p a = true
      · simp only [List.filter_cons, hq, hp, if_true, if_false,
          List.length_cons]
        exact Nat.le_succ_of_le ih
      · simp only [List.filter_cons, hq, hp, if_false]
        exact ih

theorem length_filter_lt {α : Type} (l : List α) (p q : α → Bool)
    (h : ∀ x, q x = true → p x = true) (x : α) (hx : x ∈ l)
    (hpx : p x = true) (hqx : q x = false) :
    (l.filter q).length < (l.filter p).length := by
  induction l with
  | nil => cases hx
  | cons a l ih =>
    rcases List.mem_cons.mp hx with rfl | hx2
    · rw [List.filter_cons_of_pos hpx, List.filter_cons_of_neg (by simp [hqx])]
      exact Nat.lt_succ_of_le (length_filter_mono l p q h)
    · by_cases hq : q a = true
      · have hp := h a hq
        rw [List.filter_cons_of_pos hp, List.filter_cons_of_pos hq]
        exact Nat.succ_lt_succ (ih hx2)
      · by_cases hp : p a = true
        · rw [List.filter_cons_of_pos hp,
            List.filter_cons_of_neg (by simp only [Bool.not_eq_true] at hq; simp [hq])]
          exact Nat.lt_succ_of_lt (ih hx2)
        · rw [List.filter_cons_of_neg (by simp only [Bool.not_eq_true] at hq; simp [hq]),
            List.filter_cons_of_neg (by simp only [Bool.not_eq_true] at hp; simp [hp])]
          exact ih hx2

theorem mkLink_lt {a b : ℕ} (h : a ≠ b) : (mkLink a b).1 < (mkLink a b).2 := by
  unfold mkLink
  rcases Nat.lt_or_ge a b with h1 | h1
  · simpa [Nat.min_eq_left (Nat.le_of_lt h1), Nat.max_eq_right (Nat.le_of_lt h1)]
      using h1
  · have h2 : b < a := Nat.lt_of_le_of_ne h1 (fun hh => h hh.symm)
    simpa [Nat.min_eq_right (Nat.le_of_lt h2), Nat.max_eq_left (Nat.le_of_lt h2)]
      using h2

theorem mkLink_ne {a b : ℕ} (h : a ≠ b) : (mkLink a b).1 ≠ (mkLink a b).2 :=
  Nat.ne_of_lt (mkLink_lt h)

theorem discardLinkL_ok (g : GraphState) (l : Link) (hne : l.1 ≠ l.2)
    (h1 : (dfind g.neighborhoods l.1).isSome = true)
    (h2 : (dfind g.neighborhoods l.2).isSome = true) :
    ∃ g2, discardLinkL g l = (g2, none) ∧
      g2.nodes = g.nodes ∧
      g2.links = sdiscard g.links l ∧
      (∀ k, (dfind g2.neighborhoods k).isSome =
        (dfind g.neighborhoods k).isSome) := by
  rw [Option.isSome_iff_exists] at h1 h2
  obtain ⟨s1, hs1⟩ := h1
  obtain ⟨s2, hs2⟩ := h2
  have hstep : dfind (dset g.neighborhoods l.1 (sdiscard s1 l.2)) l.2 = some s2 := by
    rw [dfind_dset_ne _ _ _ _ (Ne.symm hne)]
    exact hs2
  have hres : discardLinkL g l =
      (⟨g.nodes, sdiscard g.links l,
        discardAndDel (discardAndDel g.nodeLinks l.1 l) l.2 l,
        dset (dset g.neighborhoods l.1 (sdiscard s1 l.2)) l.2
          (sdiscard s2 l.1)⟩, none) := by
    unfold discardLinkL
    dsimp only
    rw [hs1]
    dsimp only
    rw [hstep]
  refine ⟨_, hres, rfl, rfl, fun k => ?_⟩
  by_cases hk2 : k = l.2
  · subst hk2
    rw [dfind_dset_self, hs2]
    rfl
  · rw [dfind_dset_ne _ _ _ _ hk2]
    by_cases hk1 : k = l.1
    · subst hk1
      rw [dfind_dset_self, hs1]
      rfl
    · rw [dfind_dset_ne _ _ _ _ hk1]

theorem discardCascade_ok (ls : List Link) : ∀ g : GraphState,
    (∀ l ∈ ls, l.1 ≠ l.2) →
    (∀ l ∈ ls, (dfind g.neighborhoods l.1).isSome = true ∧
      (dfind g.neighborhoods l.2).isSome = true) →
    ∃ g2, discardCascade g ls = (g2, none) ∧
      g2.nodes = g.nodes ∧
      (∀ x, x ∈ g2.links ↔ x ∈ g.links ∧ x ∉ ls) ∧
      (∀ k, (dfind g2.neighborhoods k).isSome =
        (dfind g.neighborhoods k).isSome) := by
  induction ls with
  | nil =>
    intro g _ _
    exact ⟨g, rfl, rfl, fun x => by simp, fun k => rfl⟩
  | cons l ls ih =>
    intro g hcan hkeys
    have hl := hkeys l (List.mem_cons_self _ _)
    obtain ⟨g1, hg1, hnodes1, hlinks1, hkeys1⟩ :=
      discardLinkL_ok g l (hcan l (List.mem_cons_self _ _)) hl.1 hl.2
    obtain ⟨g2, hg2, hnodes2, hlinks2, hkeys2⟩ :=
      ih g1 (fun x hx => hcan x (List.mem_cons_of_mem _ hx))
        (fun x hx => by
          rw [hkeys1, hkeys1]
          exact hkeys x (List.mem_cons_of_mem _ hx))
    refine ⟨g2, ?_, hnodes2.trans hnodes1, ?_, fun k => (hkeys2 k).trans (hkeys1 k)⟩
    · simp only [discardCascade, hg1]
      exact hg2
    · intro x
      rw [hlinks2 x, hlinks1, mem_sdiscard]
      simp only [List.mem_cons]
      tauto

/-- C6: removing a member node of a well-formed graph succeeds, and
afterwards no remaining link touches the node, the node is gone from the
node set, and its neighborhood entry is gone. -/
theorem c6_remove_node (g : GraphState) (v : ℕ) (hwf : WF g)
    (hv : v ∈ g.nodes) :
    ∃ g2, Graph.discard g v = (g2, none) ∧
      (∀ l ∈ g2.links, l.1 ≠ v ∧ l.2 ≠ v) ∧
      v ∉ g2.nodes ∧
      dfind g2.neighborhoods v = none := by
  obtain ⟨hcanon, hends, hkeys, hsound, hcomplete, hnbsub⟩ := hwf
  have hlsfacts : ∀ l ∈ (dfind g.nodeLinks v).getD [],
      l ∈ g.links ∧ (l.1 = v ∨ l.2 = v) := by
    cases hfind : dfind g.nodeLinks v with
    | none =>
      intro l hl
      simp at hl
    | some bucket =>
      simp only [Option.getD_some]
      exact hsound _ (dfind_mem hfind)
  obtain ⟨g1, hg1, hnodes1, hlinks1, hkeys1⟩ :=
    discardCascade_ok ((dfind g.nodeLinks v).getD []) g
      (fun l hl => Nat.ne_of_lt (hcanon l (hlsfacts l hl).1))
      (fun l hl => by
        obtain ⟨hlk, _⟩ := hlsfacts l hl
        obtain ⟨hm1, hm2⟩ := hends l hlk
        exact ⟨hkeys _ hm1, hkeys _ hm2⟩)
  have hv1 : (dfind g1.neighborhoods v).isSome = true := by
    rw [hkeys1]
    exact hkeys v hv
  rw [Option.isSome_iff_exists] at hv1
  obtain ⟨sv, hsv⟩ := hv1
  have hres : Graph.discard g v =
      (⟨sdiscard g1.nodes v, g1.links, g1.nodeLinks,
        derase g1.neighborhoods v⟩, none) := by
    unfold Graph.discard
    rw [hg1]
    dsimp only
    rw [hsv]
  refine ⟨_, hres, ?_, ?_, ?_⟩
  · intro l hl
    dsimp only at hl
    obtain ⟨hlg, hnotls⟩ := (hlinks1 l).mp hl
    constructor
    · intro heq
      apply hnotls
      have hc := (hcomplete l hlg).1
      rw [heq] at hc
      exact hc
    · intro heq
      apply hnotls
      have hc := (hcomplete l hlg).2
      rw [heq] at hc
      exact hc
  · dsimp only
    rw [mem_sdiscard]
    simp
  · dsimp only
    exact dfind_derase_self _ _

/-- Witness for c6_remove_node on the two-node graph with one link. -/
theorem c6_witness :
    WF gPair ∧ 1 ∈ gPair.nodes ∧
    ∃ g2, Graph.discard gPair 1 = (g2, none) ∧
      (∀ l ∈ g2.links, l.1 ≠ 1 ∧ l.2 ≠ 1) ∧
      1 ∉ g2.nodes ∧
      dfind g2.neighborhoods 1 = none :=
  ⟨by decide, by decide, c6_remove_node gPair 1 (by decide) (by decide)⟩

theorem selfMem_add (g : GraphState) (v : ℕ) (h : SelfMem g) :
    SelfMem (Graph.add g v) := by
  intro a ha
  have ha2 : a ∈ sadd g.nodes v := ha
  rw [mem_sadd] at ha2
  by_cases hav : a = v
  · subst hav
    refine ⟨[a], ?_, List.mem_singleton_self a⟩
    show dfind (dset g.neighborhoods a [a]) a = some [a]
    exact dfind_dset_self _ _ _
  · obtain ⟨s, hs, hmem⟩ := h a (ha2.resolve_right hav)
    refine ⟨s, ?_, hmem⟩
    show dfind (dset g.neighborhoods v [v]) a = some s
    rw [dfind_dset_ne _ _ _ _ hav]
    exact hs

theorem discardAndDel_entries {m : List (ℕ × List Link)} {k : ℕ} {e : Link}
    {ent : ℕ × List Link} (h : ent ∈ discardAndDel m k e) :
    ∀ l ∈ ent.2, ∃ ent0, ent0 ∈ m ∧ l ∈ ent0.2 := by
  unfold discardAndDel at h
  split at h
  · exact fun l hl => ⟨ent, h, hl⟩
  · rename_i c hf
    dsimp only at h
    split at h
    · exact fun l hl => ⟨ent, mem_derase h, hl⟩
    · intro l hl
      rcases mem_dset h with rfl | hm
      · exact ⟨(k, c), dfind_mem hf, (mem_sdiscard.mp hl).1⟩
      · exact ⟨ent, hm, hl⟩

theorem dsetdefaultAdd_entries {m : List (ℕ × List Link)} {k : ℕ} {e : Link}
    {ent : ℕ × List Link} (h : ent ∈ dsetdefaultAdd m k e) :
    ∀ l ∈ ent.2, (∃ ent0, ent0 ∈ m ∧ l ∈ ent0.2) ∨ l = e := by
  unfold dsetdefaultAdd at h
  split at h
  · rcases List.mem_append.mp h with hm | hm
    · exact fun l hl => Or.inl ⟨ent, hm, hl⟩
    · intro l hl
      simp only [List.mem_singleton] at hm
      subst hm
      simp only [List.mem_singleton] at hl
      exact Or.inr hl
  · rename_i c hf
    intro l hl
    rcases mem_dset h with rfl | hm
    · rcases mem_sadd.mp hl with hm2 | rfl
      · exact Or.inl ⟨(k, c), dfind_mem hf, hm2⟩
      · exact Or.inr rfl
    · exact Or.inl ⟨ent, hm, hl⟩

theorem inv7_addLinkCore (g : GraphState) (l : Link) (hlt : l.1 < l.2)
    (hSelf : SelfMem g) (hProp : LinksProper g) :
    SelfMem (addLinkCore g l).1 ∧ LinksProper (addLinkCore g l).1 := by
  have hne : l.1 ≠ l.2 := Nat.ne_of_lt hlt
  have hProp2 : LinksProper { g with
      nodeLinks := dsetdefaultAdd (dsetdefaultAdd g.nodeLinks l.1 l) l.2 l } := by
    intro ent hent x hx
    rcases dsetdefaultAdd_entries hent x hx with ⟨ent0, hm0, hx0⟩ | rfl
    · rcases dsetdefaultAdd_entries hm0 x hx0 with ⟨ent1, hm1, hx1⟩ | rfl
      · exact hProp ent1 hm1 x hx1
      · exact hlt
    · exact hlt
  unfold addLinkCore
  dsimp only
  cases hf : dfind g.neighborhoods l.1 with
  | none => exact ⟨fun a ha => hSelf _ ha, hProp2⟩
  | some s1 =>
    dsimp only
    have hs2eq : dfind (dset g.neighborhoods l.1 (sadd s1 l.2)) l.2 =
        dfind g.neighborhoods l.2 := dfind_dset_ne _ _ _ _ (Ne.symm hne)
    rw [hs2eq]
    cases hf2 : dfind g.neighborhoods l.2 with
    | none =>
      dsimp only
      refine ⟨?_, hProp2⟩
      intro a ha
      by_cases ha1 : a = l.1
      · subst ha1
        obtain ⟨s, hs, hmem⟩ := hSelf _ ha
        rw [hf] at hs
        rw [show s = s1 from Option.some_injective _ hs.symm] at hmem
        exact ⟨sadd s1 l.2, dfind_dset_self _ _ _, mem_sadd.mpr (Or.inl hmem)⟩
      · obtain ⟨s, hs, hmem⟩ := hSelf _ ha
        refine ⟨s, ?_, hmem⟩
        rw [dfind_dset_ne _ _ _ _ ha1]
        exact hs
    | some s2 =>
      dsimp only
      refine ⟨?_, hProp2⟩
      intro a ha
      by_cases ha2 : a = l.2
      · subst ha2
        obtain ⟨s, hs, hmem⟩ := hSelf _ ha
        rw [hf2] at hs
        rw [show s = s2 from Option.some_injective _ hs.symm] at hmem
        exact ⟨sadd s2 l.1, dfind_dset_self _ _ _, mem_sadd.mpr (Or.inl hmem)⟩
      · by_cases ha1 : a = l.1
        · subst ha1
          obtain ⟨s, hs, hmem⟩ := hSelf _ ha
          rw [hf] at hs
          rw [show s = s1 from Option.some_injective _ hs.symm] at hmem
          refine ⟨sadd s1 l.2, ?_, mem_sadd.mpr (Or.inl hmem)⟩
          rw [dfind_dset_ne _ _ _ _ hne]
          exact dfind_dset_self _ _ _
        · obtain ⟨s, hs, hmem⟩ := hSelf _ ha
          refine ⟨s, ?_, hmem⟩
          rw [dfind_dset_ne _ _ _ _ ha2, dfind_dset_ne _ _ _ _ ha1]
          exact hs

theorem inv7_discardLinkL (g : GraphState) (l : Link) (hne : l.1 ≠ l.2)
    (hSelf : SelfMem g) (hProp : LinksProper g) :
    SelfMem (discardLinkL g l).1 ∧ LinksProper (discardLinkL g l).1 := by
  have hProp2 : LinksProper { g with
      nodeLinks := discardAndDel (discardAndDel g.nodeLinks l.1 l) l.2 l } := by
    intro ent hent x hx
    obtain ⟨ent0, hm0, hx0⟩ := discardAndDel_entries hent x hx
    obtain ⟨ent1, hm1, hx1⟩ := discardAndDel_entries hm0 x hx0
    exact hProp ent1 hm1 x hx1
  unfold discardLinkL
  dsimp only
  cases hf : dfind g.neighborhoods l.1 with
  | none => exact ⟨fun a ha => hSelf _ ha, hProp2⟩
  | some s1 =>
    dsimp only
    have hs2eq : dfind (dset g.neighborhoods l.1 (sdiscard s1 l.2)) l.2 =
        dfind g.neighborhoods l.2 := dfind_dset_ne _ _ _ _ (Ne.symm hne)
    rw [hs2eq]
    cases hf2 : dfind g.neighborhoods l.2 with
    | none =>
      dsimp only
      refine ⟨?_, hProp2⟩
      intro a ha
      by_cases ha1 : a = l.1
      · subst ha1
        obtain ⟨s, hs, hmem⟩ := hSelf _ ha
        rw [hf] at hs
        rw [show s = s1 from Option.some_injective _ hs.symm] at hmem
        exact ⟨sdiscard s1 l.2, dfind_dset_self _ _ _,
          mem_sdiscard.mpr ⟨hmem, hne⟩⟩
      · obtain ⟨s, hs, hmem⟩ := hSelf _ ha
        refine ⟨s, ?_, hmem⟩
        rw [dfind_dset_ne _ _ _ _ ha1]
        exact hs
    | some s2 =>
      dsimp only
      refine ⟨?_, hProp2⟩
      intro a ha
      by_cases ha2 : a = l.2
      · subst ha2
        obtain ⟨s, hs, hmem⟩ := hSelf _ ha
        rw [hf2] at hs
        rw [show s = s2 from Option.some_injective _ hs.symm] at hmem
        exact ⟨sdiscard s2 l.1, dfind_dset_self _ _ _,
          mem_sdiscard.mpr ⟨hmem, Ne.symm hne⟩⟩
      · by_cases ha1 : a = l.1
        · subst ha1
          obtain ⟨s, hs, hmem⟩ := hSelf _ ha
          rw [hf] at hs
          rw [show s = s1 from Option.some_injective _ hs.symm] at hmem
          refine ⟨sdiscard s1 l.2, ?_, mem_sdiscard.mpr ⟨hmem, hne⟩⟩
          rw [dfind_dset_ne _ _ _ _ hne]
          exact dfind_dset_self _ _ _
        · obtain ⟨s, hs, hmem⟩ := hSelf _ ha
          refine ⟨s, ?_, hmem⟩
          rw [dfind_dset_ne _ _ _ _ ha2, dfind_dset_ne _ _ _ _ ha1]
          exact hs

theorem inv7_cascade (ls : List Link) : ∀ g : GraphState,
    (∀ l ∈ ls, l.1 ≠ l.2) → SelfMem g → LinksProper g →
    SelfMem (discardCascade g ls).1 ∧ LinksProper (discardCascade g ls).1 := by
  induction ls with
  | nil =>
    intro g _ hS hP
    exact ⟨hS, hP⟩
  | cons l ls ih =>
    intro g hne hS hP
    have h1 := inv7_discardLinkL g l (hne l (List.mem_cons_self _ _)) hS hP
    cases hd : discardLinkL g l with
    | mk g1 err =>
      rw [hd] at h1
      dsimp only at h1
      cases err with
      | none =>
        have h2 := ih g1 (fun x hx => hne x (List.mem_cons_of_mem _ hx)) h1.1 h1.2
        simpa [discardCascade, hd] using h2
      | some e =>
        simpa [discardCascade, hd] using h1

theorem inv7_discard (g : GraphState) (v : ℕ) (hS : SelfMem g)
    (hP : LinksProper g) :
    SelfMem (Graph.discard g v).1 ∧ LinksProper (Graph.discard g v).1 := by
  have hnecasc : ∀ l ∈ (dfind g.nodeLinks v).getD [], l.1 ≠ l.2 := by
    cases hf : dfind g.nodeLinks v with
    | none =>
      intro l hl
      simp at hl
    | some bucket =>
      simp only [Option.getD_some]
      intro l hl
      exact Nat.ne_of_lt (hP _ (dfind_mem hf) l hl)
  have hcasc := inv7_cascade _ g hnecasc hS hP
  unfold Graph.discard
  cases hd : discardCascade g ((dfind g.nodeLinks v).getD []) with
  | mk g1 err =>
    rw [hd] at hcasc
    dsimp only at hcasc
    cases err with
    | some e => exact hcasc
    | none =>
      dsimp only
      cases hf2 : dfind g1.neighborhoods v with
      | none =>
        refine ⟨?_, hcasc.2⟩
        intro a ha
        exact hcasc.1 a (mem_sdiscard.mp ha).1
      | some s =>
        dsimp only
        refine ⟨?_, hcasc.2⟩
        intro a ha
        have ha2 := mem_sdiscard.mp ha
        obtain ⟨s0, hs0, hmem⟩ := hcasc.1 a ha2.1
        refine ⟨s0, ?_, hmem⟩
        show dfind (derase g1.neighborhoods v) a = some s0
        rw [dfind_derase_ne _ _ _ ha2.2]
        exact hs0

theorem inv7_add_link (g : GraphState) (a b : ℕ) (hS : SelfMem g)
    (hP : LinksProper g) :
    SelfMem (Graph.add_link g a b).1 ∧ LinksProper (Graph.add_link g a b).1 := by
  unfold Graph.add_link
  by_cases hab : a = b
  · rw [if_pos hab]
    exact ⟨hS, hP⟩
  · rw [if_neg hab]
    by_cases ha : a ∈ g.nodes
    · rw [if_pos ha]
      by_cases hb : b ∈ g.nodes
      · rw [if_pos hb]
        exact inv7_addLinkCore g (mkLink a b) (mkLink_lt hab) hS hP
      · rw [if_neg hb]
        exact ⟨hS, hP⟩
    · rw [if_neg ha]
      exact ⟨hS, hP⟩

theorem inv7_discard_link (g : GraphState) (a b : ℕ) (hS : SelfMem g)
    (hP : LinksProper g) :
    SelfMem (Graph.discard_link g a b).1 ∧
      LinksProper (Graph.discard_link g a b).1 := by
  unfold Graph.discard_link
  by_cases hab : a = b
  · rw [if_pos hab]
    exact ⟨hS, hP⟩
  · rw [if_neg hab]
    exact inv7_discardLinkL g (mkLink a b) (mkLink_ne hab) hS hP

theorem inv7_reachable (g : GraphState) (h : Reachable g) :
    SelfMem g ∧ LinksProper g := by
  induction h with
  | empty =>
    constructor
    · intro a ha
      simp [GraphState.empty] at ha
    · intro e he
      simp [GraphState.empty] at he
  | add g v _ ih => exact ⟨selfMem_add g v ih.1, ih.2⟩
  | discard g v _ ih => exact inv7_discard g v ih.1 ih.2
  | add_link g a b _ ih => exact inv7_add_link g a b ih.1 ih.2
  | discard_link g a b _ ih => exact inv7_discard_link g a b ih.1 ih.2
  | nview_add g n v _ ih =>
    unfold nviewAdd
    by_cases hnv : n = v
    · rw [if_pos hnv]
      exact ⟨selfMem_add g v ih.1, ih.2⟩
    · rw [if_neg hnv]
      exact inv7_add_link (Graph.add g v) n v (selfMem_add g v ih.1) ih.2
  | nview_discard g n v _ ih =>
    unfold nviewDiscard
    by_cases hnv : n = v
    · rw [if_pos hnv]
      exact ih
    · rw [if_neg hnv]
      exact inv7_discard_link g n v ih.1 ih.2
  | nlview_add g n x y _ ih =>
    unfold nlviewAdd
    by_cases hxy : x = y
    · rw [if_pos hxy]
      exact ih
    · rw [if_neg hxy]
      by_cases hn : n = x ∨ n = y
      · rw [if_pos hn]
        exact inv7_add_link g x y ih.1 ih.2
      · rw [if_neg hn]
        exact ih
  | nlview_discard g n x y _ ih =>
    unfold nlviewDiscard
    by_cases hxy : x = y
    · rw [if_pos hxy]
      exact ih
    · rw [if_neg hxy]
      by_cases hmem : mkLink x y ∈ (dfind g.nodeLinks n).getD []
      · rw [if_pos hmem]
        exact inv7_discardLinkL g (mkLink x y) (mkLink_ne hxy) ih.1 ih.2
      · rw [if_neg hmem]
        exact ih

/-- C7: in every graph state reachable from the empty graph through the
public mutation operations (the Graph primitives and the mutating view
operations), every member node has a neighborhood entry that contains the
node itself - in particular the entry is never empty. -/
theorem c7_self_neighborhood (g : GraphState) (h : Reachable g) :
    ∀ a ∈ g.nodes, ∃ s, dfind g.neighborhoods a = some s ∧ a ∈ s ∧ s ≠ [] := by
  intro a ha
  obtain ⟨s, hs, hmem⟩ := (inv7_reachable g h).1 a ha
  exact ⟨s, hs, hmem, List.ne_nil_of_mem hmem⟩

/-- Witness for c7_self_neighborhood on the reachable one-node graph. -/
theorem c7_witness :
    1 ∈ (Graph.add GraphState.empty 1).nodes ∧
    ∃ s, dfind (Graph.add GraphState.empty 1).neighborhoods 1 = some s ∧
      1 ∈ s ∧ s ≠ [] :=
  ⟨by decide, c7_self_neighborhood (Graph.add GraphState.empty 1)
    (Reachable.add GraphState.empty 1 Reachable.empty) 1 (by decide)⟩

theorem nbhdList_subset (g : GraphState)
    (h : ∀ e ∈ g.neighborhoods, ∀ u ∈ e.2, u ∈ g.nodes)
    (p x : ℕ) (hx : x ∈ nbhdList g p) : x ∈ g.nodes := by
  unfold nbhdList at hx
  cases hf : dfind g.neighborhoods p with
  | none =>
    rw [hf] at hx
    simp at hx
  | some s =>
    rw [hf] at hx
    simp only [Option.getD_some] at hx
    exact h _ (dfind_mem hf) x hx

theorem keysOk_add (g : GraphState) (v : ℕ) (h : KeysOk g) :
    KeysOk (Graph.add g v) := by
  intro a ha
  have ha2 := mem_sadd.mp ha
  by_cases hav : a = v
  · subst hav
    show (dfind (dset g.neighborhoods a [a]) a).isSome = true
    rw [dfind_dset_self]
    rfl
  · show (dfind (dset g.neighborhoods v [v]) a).isSome = true
    rw [dfind_dset_ne _ _ _ _ hav]
    exact h a (ha2.resolve_right hav)

theorem addLink_ok (g : GraphState) (a b : ℕ) (hne : a ≠ b)
    (ha : a ∈ g.nodes) (hb : b ∈ g.nodes)
    (hka : (dfind g.neighborhoods a).isSome = true)
    (hkb : (dfind g.neighborhoods b).isSome = true) :
    ∃ g2, Graph.add_link g a b = (g2, none) ∧
      g2.nodes = g.nodes ∧
      (∀ k, (dfind g2.neighborhoods k).isSome =
        (dfind g.neighborhoods k).isSome) := by
  have hlt := mkLink_lt hne
  have hlne := Nat.ne_of_lt hlt
  have h1 : (dfind g.neighborhoods (mkLink a b).1).isSome = true := by
    rcases min_choice a b with h | h <;> simp [mkLink, h, hka, hkb]
  have h2 : (dfind g.neighborhoods (mkLink a b).2).isSome = true := by
    rcases max_choice a b with h | h <;> simp [mkLink, h, hka, hkb]
  obtain ⟨s1, hs1⟩ := Option.isSome_iff_exists.mp h1
  obtain ⟨s2, hs2⟩ := Option.isSome_iff_exists.mp h2
  have hstep : dfind (dset g.neighborhoods (mkLink a b).1
      (sadd s1 (mkLink a b).2)) (mkLink a b).2 = some s2 := by
    rw [dfind_dset_ne _ _ _ _ (Ne.symm hlne)]
    exact hs2
  have hres : Graph.add_link g a b =
      (⟨g.nodes, sadd g.links (mkLink a b),
        dsetdefaultAdd (dsetdefaultAdd g.nodeLinks (mkLink a b).1 (mkLink a b))
          (mkLink a b).2 (mkLink a b),
        dset (dset g.neighborhoods (mkLink a b).1 (sadd s1 (mkLink a b).2))
          (mkLink a b).2 (sadd s2 (mkLink a b).1)⟩, none) := by
    unfold Graph.add_link
    rw [if_neg hne, if_pos ha, if_pos hb]
    unfold addLinkCore
    dsimp only
    rw [hs1]
    dsimp only
    rw [hstep]
  refine ⟨_, hres, rfl, fun k => ?_⟩
  by_cases hk2 : k = (mkLink a b).2
  · subst hk2
    rw [dfind_dset_self, hs2]
    rfl
  · rw [dfind_dset_ne _ _ _ _ hk2]
    by_cases hk1 : k = (mkLink a b).1
    · subst hk1
      rw [dfind_dset_self, hs1]
      rfl
    · rw [dfind_dset_ne _ _ _ _ hk1]

theorem processChildren_spec (g : GraphState) (parent : ℕ) (cs : List ℕ) :
    ∀ (sub : GraphState) (seen nl : List ℕ),
    parent ∈ seen →
    KeysOk sub →
    (∀ x, x ∈ sub.nodes ↔ (x ∈ seen ∨ x ∈ nl)) →
    ∃ sub2 nl2, processChildren g parent cs sub seen nl = .ok (sub2, nl2) ∧
      KeysOk sub2 ∧
      (∀ x, x ∈ nl2 ↔ (x ∈ nl ∨ (x ∈ cs ∧ x ∉ seen))) ∧
      (∀ x, x ∈ sub2.nodes ↔ (x ∈ seen ∨ x ∈ nl2)) := by
  induction cs with
  | nil =>
    intro sub seen nl hp hK hiff
    exact ⟨sub, nl, rfl, hK, fun x => by simp, hiff⟩
  | cons c cs ih =>
    intro sub seen nl hp hK hiff
    by_cases hc : c ∈ seen
    · obtain ⟨sub2, nl2, hrun, hK2, hnl2, hiff2⟩ := ih sub seen nl hp hK hiff
      refine ⟨sub2, nl2, ?_, hK2, ?_, hiff2⟩
      · simp only [processChildren, if_pos hc]
        exact hrun
      · intro x
        rw [hnl2 x]
        simp only [List.mem_cons]
        constructor
        · rintro (h | ⟨h1, h2⟩)
          · exact Or.inl h
          · exact Or.inr ⟨Or.inr h1, h2⟩
        · rintro (h | ⟨rfl | h1, h2⟩)
          · exact Or.inl h
          · exact absurd hc h2
          · exact Or.inr ⟨h1, h2⟩
    · have hpmem : parent ∈ sub.nodes := (hiff parent).mpr (Or.inl hp)
      have hpc : parent ≠ c := fun h => hc (h ▸ hp)
      have hK1 : KeysOk (Graph.add sub c) := keysOk_add sub c hK
      have hpmem1 : parent ∈ (Graph.add sub c).nodes := by
        show parent ∈ sadd sub.nodes c
        rw [mem_sadd]
        exact Or.inl hpmem
      have hcmem1 : c ∈ (Graph.add sub c).nodes := by
        show c ∈ sadd sub.nodes c
        rw [mem_sadd]
        exact Or.inr rfl
      obtain ⟨sub2, hadd, hnodes2, hkeys2⟩ :=
        addLink_ok (Graph.add sub c) parent c hpc hpmem1 hcmem1
          (hK1 parent hpmem1) (hK1 c hcmem1)
      have hK2 : KeysOk sub2 := by
        intro x hx
        rw [hkeys2]
        exact hK1 x (hnodes2 ▸ hx)
      obtain ⟨sub3, nl3, hrun, hK3, hnl3, hiff3⟩ :=
        ih sub2 seen (sadd nl c) hp hK2 (fun x => by
          rw [hnodes2]
          show x ∈ sadd sub.nodes c ↔ _
          rw [mem_sadd, mem_sadd, hiff x]
          tauto)
      refine ⟨sub3, nl3, ?_, hK3, ?_, hiff3⟩
      · simp only [processChildren, if_neg hc]
        rw [hadd]
        exact hrun
      · intro x
        rw [hnl3 x, mem_sadd]
        simp only [List.mem_cons]
        constructor
        · rintro ((h | rfl) | ⟨h1, h2⟩)
          · exact Or.inl h
          · exact Or.inr ⟨Or.inl rfl, hc⟩
          · exact Or.inr ⟨Or.inr h1, h2⟩
        · rintro (h | ⟨rfl | h1, h2⟩)
          · exact Or.inl (Or.inl h)
          · exact Or.inl (Or.inr rfl)
          · exact Or.inr ⟨h1, h2⟩

theorem processLevel_spec (g : GraphState) (ps : List ℕ) :
    ∀ (sub : GraphState) (seen nl : List ℕ),
    (∀ p ∈ ps, p ∈ seen) →
    KeysOk sub →
    (∀ x, x ∈ sub.nodes ↔ (x ∈ seen ∨ x ∈ nl)) →
    ∃ sub2 nl2, processLevel g ps sub seen nl = .ok (sub2, nl2) ∧
      KeysOk sub2 ∧
      (∀ x, x ∈ nl2 ↔ (x ∈ nl ∨ ∃ p ∈ ps, x ∈ nbhdList g p ∧ x ∉ seen)) ∧
      (∀ x, x ∈ sub2.nodes ↔ (x ∈ seen ∨ x ∈ nl2)) := by
  induction ps with
  | nil =>
    intro sub seen nl _ hK hiff
    exact ⟨sub, nl, rfl, hK, fun x => by simp, hiff⟩
  | cons p ps ih =>
    intro sub seen nl hps hK hiff
    obtain ⟨sub1, nl1, hrun1, hK1, hnl1, hiff1⟩ :=
      processChildren_spec g p (nbhdList g p) sub seen nl
        (hps p (List.mem_cons_self _ _)) hK hiff
    obtain ⟨sub2, nl2, hrun2, hK2, hnl2, hiff2⟩ :=
      ih sub1 seen nl1 (fun q hq => hps q (List.mem_cons_of_mem _ hq)) hK1 hiff1
    refine ⟨sub2, nl2, ?_, hK2, ?_, hiff2⟩
    · simp only [processLevel]
      rw [hrun1]
      exact hrun2
    · intro x
      rw [hnl2 x, hnl1 x]
      constructor
      · rintro ((h | ⟨h1, h2⟩) | ⟨q, hq, h1, h2⟩)
        · exact Or.inl h
        · exact Or.inr ⟨p, List.mem_cons_self _ _, h1, h2⟩
        · exact Or.inr ⟨q, List.mem_cons_of_mem _ hq, h1, h2⟩
      · rintro (h | ⟨q, hq, h1, h2⟩)
        · exact Or.inl (Or.inl h)
        · rcases List.mem_cons.mp hq with rfl | hq2
          · exact Or.inl (Or.inr ⟨h1, h2⟩)
          · exact Or.inr ⟨q, hq2, h1, h2⟩

theorem bfsLoop_spec (g : GraphState)
    (hg : ∀ e ∈ g.neighborhoods, ∀ u ∈ e.2, u ∈ g.nodes) :
    ∀ (fuel : ℕ) (sub : GraphState) (seen : List ℕ)
      (layers : List (List ℕ)) (nl : List ℕ),
    (∀ x ∈ seen, x ∈ g.nodes) →
    (∀ x ∈ nl, x ∈ g.nodes) →
    (∀ x ∈ nl, x ∉ seen) →
    (∀ x, x ∈ seen ↔ ∃ L ∈ layers, x ∈ L) →
    List.Pairwise (fun A B => ∀ x ∈ A, x ∉ B) layers →
    (∀ L ∈ layers, L ≠ []) →
    KeysOk sub →
    (∀ x, x ∈ sub.nodes ↔ (x ∈ seen ∨ x ∈ nl)) →
    (g.nodes.filter (fun x => decide (x ∉ seen))).length < fuel →
    ∃ sub2 layers2, bfsLoop g fuel sub seen layers nl = .ok (sub2, layers2) ∧
      (∀ L ∈ layers2, L ≠ []) ∧
      List.Pairwise (fun A B => ∀ x ∈ A, x ∉ B) layers2 ∧
      (∀ x, (∃ L ∈ layers2, x ∈ L) ↔ x ∈ sub2.nodes) := by
  intro fuel
  induction fuel with
  | zero =>
    intro sub seen layers nl _ _ _ _ _ _ _ _ hfuel
    exact absurd hfuel (Nat.not_lt_zero _)
  | succ fuel ih =>
    intro sub seen layers nl hseeng hnlg hdisj hslayers hpw hlne hK hiff hfuel
    by_cases hnl : nl = []
    · subst hnl
      refine ⟨sub, layers, ?_, hlne, hpw, ?_⟩
      · simp [bfsLoop]
      · intro x
        rw [← hslayers x, hiff x]
        simp
    · have hseen1 : ∀ x, x ∈ nl.foldl sadd seen ↔ (x ∈ seen ∨ x ∈ nl) :=
        fun x => mem_foldl_sadd nl seen x
      obtain ⟨sub1, nl1, hrun, hK1, hnl1, hiff1⟩ :=
        processLevel_spec g nl sub (nl.foldl sadd seen) []
          (fun p hp => (hseen1 p).mpr (Or.inr hp)) hK
          (fun x => by
            rw [hiff x, hseen1 x]
            simp)
      have hseeng1 : ∀ x ∈ nl.foldl sadd seen, x ∈ g.nodes := by
        intro x hx
        rcases (hseen1 x).mp hx with h | h
        · exact hseeng x h
        · exact hnlg x h
      have hnlg1 : ∀ x ∈ nl1, x ∈ g.nodes := by
        intro x hx
        rcases (hnl1 x).mp hx with h | ⟨p, hp, h1, h2⟩
        · simp at h
        · exact nbhdList_subset g hg p x h1
      have hdisj1 : ∀ x ∈ nl1, x ∉ nl.foldl sadd seen := by
        intro x hx
        rcases (hnl1 x).mp hx with h | ⟨p, hp, h1, h2⟩
        · simp at h
        · exact h2
      have hslayers1 : ∀ x, x ∈ nl.foldl sadd seen ↔
          ∃ L ∈ layers ++ [nl], x ∈ L := by
        intro x
        rw [hseen1 x, hslayers x]
        constructor
        · rintro (⟨L, hL, hx⟩ | h)
          · exact ⟨L, List.mem_append_left _ hL, hx⟩
          · exact ⟨nl, List.mem_append_right _ (List.mem_singleton_self _), h⟩
        · rintro ⟨L, hL, hx⟩
          rcases List.mem_append.mp hL with h | h
          · exact Or.inl ⟨L, h, hx⟩
          · rw [List.mem_singleton] at h
            subst h
            exact Or.inr hx
      have hpw1 : List.Pairwise (fun A B => ∀ x ∈ A, x ∉ B) (layers ++ [nl]) := by
        rw [List.pairwise_append]
        refine ⟨hpw, List.pairwise_singleton _ _, ?_⟩
        intro L hL B hB
        rw [List.mem_singleton] at hB
        subst hB
        intro x hx hxnl
        exact hdisj x hxnl ((hslayers x).mpr ⟨L, hL, hx⟩)
      have hlne1 : ∀ L ∈ layers ++ [nl], L ≠ [] := by
        intro L hL
        rcases List.mem_append.mp hL with h | h
        · exact hlne L h
        · rw [List.mem_singleton] at h
          subst h
          exact hnl
      obtain ⟨c, hc⟩ := List.exists_mem_of_ne_nil nl hnl
      have hfuel1 : (g.nodes.filter
          (fun x => decide (x ∉ nl.foldl sadd seen))).length < fuel := by
        have hstrict := length_filter_lt g.nodes
          (fun x => decide (x ∉ seen)) (fun x => decide (x ∉ nl.foldl sadd seen))
          (fun x hx => by
            rw [decide_eq_true_eq] at hx ⊢
            intro hmem
            exact hx ((hseen1 x).mpr (Or.inl hmem)))
          c (hnlg c hc)
          (by
            rw [decide_eq_true_eq]
            exact hdisj c hc)
          (by
            rw [decide_eq_false_iff_not]
            intro hnot
            exact hnot ((hseen1 c).mpr (Or.inr hc)))
        exact Nat.lt_of_lt_of_le hstrict (Nat.lt_succ_iff.mp hfuel)
      obtain ⟨sub2, layers2, hrun2, hlne2, hpw2, hun2⟩ :=
        ih sub1 (nl.foldl sadd seen) (layers ++ [nl]) nl1
          hseeng1 hnlg1 hdisj1 hslayers1 hpw1 hlne1 hK1 hiff1 hfuel1
      refine ⟨sub2, layers2, ?_, hlne2, hpw2, hun2⟩
      simp only [bfsLoop, if_neg hnl]
      rw [hrun]
      exact hrun2

/-- C10: for every well-formed graph and every start node, the minimal
spanning computation completes, its layers are nonempty and pairwise
disjoint, and their union is exactly the node set of the returned
subgraph. -/
theorem c10_layers (g : GraphState) (start : ℕ) (hwf : WF g) :
    ∃ sub layers, minimalSpanning g start = .ok (sub, layers) ∧
      (∀ L ∈ layers, L ≠ []) ∧
      List.Pairwise (fun A B => ∀ x ∈ A, x ∉ B) layers ∧
      (∀ x, (∃ L ∈ layers, x ∈ L) ↔ x ∈ sub.nodes) := by
  obtain ⟨hcanon, hends, hkeys, hsound, hcomplete, hnbsub⟩ := hwf
  unfold minimalSpanning
  by_cases hs : start ∈ g.nodes
  · rw [if_pos hs]
    have hK : KeysOk (Graph.add GraphState.empty start) := by
      intro a ha
      have ha2 : a ∈ sadd ([] : List ℕ) start := ha
      rw [mem_sadd] at ha2
      rcases ha2 with h | rfl
      · simp at h
      · show (dfind (dset [] a [a]) a).isSome = true
        rw [dfind_dset_self]
        rfl
    exact bfsLoop_spec g hnbsub (g.nodes.length + 1)
      (Graph.add GraphState.empty start) [] [] [start]
      (fun x hx => absurd hx (List.not_mem_nil x))
      (fun x hx => by
        rw [List.mem_singleton] at hx
        subst hx
        exact hs)
      (fun x _ => List.not_mem_nil x)
      (fun x => by simp)
      List.Pairwise.nil
      (fun L hL => absurd hL (List.not_mem_nil L))
      hK
      (fun x => by
        show x ∈ sadd ([] : List ℕ) start ↔ _
        rw [mem_sadd]
        simp)
      (Nat.lt_succ_of_le (List.length_filter_le _ g.nodes))
  · rw [if_neg hs]
    refine ⟨GraphState.empty, [], ?_, ?_, List.Pairwise.nil, ?_⟩
    · simp [bfsLoop]
    · intro L hL
      exact absurd hL (List.not_mem_nil L)
    · intro x
      simp [GraphState.empty]

/-- Witness for c10_layers on the scenario graph with start node 1. -/
theorem c10_witness :
    WF gC8 ∧
    ∃ sub layers, minimalSpanning gC8 1 = .ok (sub, layers) ∧
      (∀ L ∈ layers, L ≠ []) ∧
      List.Pairwise (fun A B => ∀ x ∈ A, x ∉ B) layers ∧
      (∀ x, (∃ L ∈ layers, x ∈ L) ↔ x ∈ sub.nodes) :=
  ⟨by decide, c10_layers gC8 1 (by decide)⟩
